import Mathlib

/-!
Verification of the event-recommender frontend against its specification.

The development shallowly embeds the client-side logic of the repository:

* `parseRecommendation` — the raw-text-block parser of the React component in
  `src/unnamed/part_000` (lines 49–76), which turns a newline-delimited text
  blob into a structured recommendation record or the invalid sentinel `null`
  (here `none`);
* the card-rendering fragments of the same component that deduplicate category
  tags (`Array.from(new Set(rec.categories))`) and display the relevance score
  (`(rec.relevance_score * 100).toFixed(0)`);
* the submit handlers of both React variants (`src/unnamed/part_000` lines
  78–104 and `src/frontend/src/App.tsx` lines 29–53), embedded as pure state
  transformers over the component state they update;
* the browser-storage persistence of `src/frontend/src/App.tsx` (lines 16–27),
  together with models of `JSON.stringify` / `JSON.parse` restricted to arrays
  of strings, which are the shapes the component stores.

Strings are modelled as `List Char` (JavaScript strings are sequences of
code units; none of the verified code distinguishes surrogate pairs), and all
string primitives used by the source (`trim`, `split`, `startsWith`,
single-occurrence `replace`) are defined below with JavaScript's semantics.
-/

/-- The character class JavaScript's `String.prototype.trim` removes and the
regular-expression class `\s` matches: WhiteSpace ∪ LineTerminator
(ECMA-262 §22.1.3.29 / §22.2.2.9). Both the `trim()` calls and the
`/^-\s*/` bullet regex of `parseRecommendation` use exactly this class. -/
def jsWhitespace (c : Char) : Bool :=
  c = ' ' || c = '\t' || c = '\n' || c = '\r' ||
  c.toNat = 0x0b || c.toNat = 0x0c || c.toNat = 0xa0 || c.toNat = 0x1680 ||
  (0x2000 ≤ c.toNat && c.toNat ≤ 0x200a) ||
  c.toNat = 0x2028 || c.toNat = 0x2029 || c.toNat = 0x202f ||
  c.toNat = 0x205f || c.toNat = 0x3000 || c.toNat = 0xfeff

/-- JavaScript `String.prototype.trim`: drop `jsWhitespace` characters from
both ends. -/
def trimL (l : List Char) : List Char :=
  ((l.dropWhile jsWhitespace).reverse.dropWhile jsWhitespace).reverse

/-- JavaScript `String.prototype.split` with a single-character separator:
`"a\nb".split('\n') = ["a","b"]`, `"".split('\n') = [""]`, and a trailing
separator yields a trailing empty piece. -/
def splitOnChar (sep : Char) : List Char → List (List Char)
  | [] => [[]]
  | c :: cs =>
    let rest := splitOnChar sep cs
    if c = sep then [] :: rest
    else
      match rest with
      | [] => [[c]]
      | h :: t => (c :: h) :: t

/-- JavaScript `String.prototype.startsWith` (first argument: the string, second:
the candidate leading substring). -/
def startsWithL : List Char → List Char → Bool
  | _, [] => true
  | [], _ :: _ => false
  | c :: cs, p :: ps => if c = p then startsWithL cs ps else false

/-- JavaScript `String.prototype.replace(sub, '')` with a plain-string pattern:
remove the first occurrence of `sub`, leave the string unchanged when `sub`
does not occur. -/
def removeFirstOcc (sub : List Char) : List Char → List Char
  | [] => []
  | c :: cs =>
    if startsWithL (c :: cs) sub then List.drop sub.length (c :: cs)
    else c :: removeFirstOcc sub cs

/-- The `Recommendation` interface of `src/unnamed/part_000` (lines 5–16).
The raw-block parser populates the first six fields; the last four only occur
in structured backend responses. `relevance_score` (a JS number carrying a
value in [0,1]) is modelled as an exact rational. -/
structure Recommendation where
  title : List Char
  description : List Char
  date : List Char
  location : List Char
  price : Option (List Char)
  categories : Option (List (List Char))
  url : Option (List Char) := none
  relevance_score : Option ℚ := none
  reasoning : Option (List Char) := none
  personalization : Option (List Char) := none
deriving Repr, DecidableEq

/-- The expression `text.split('\n').filter(line => line.trim() !== '')` — the non-empty
lines of a raw block (`parseRecommendation`, line 51). -/
def nonEmptyLines (text : List Char) : List (List Char) :=
  (splitOnChar '\n' text).filter (fun l => !decide (trimL l = []))

/-- The expression `lines[0].replace(/^-\s*/, '')` — strip one leading `-` bullet together
with the whitespace following it (`parseRecommendation`, line 59). -/
def stripBullet (l : List Char) : List Char :=
  match l with
  | '-' :: rest => rest.dropWhile jsWhitespace
  | _ => l

/-- The expression `lines.find(line => line.trim().startsWith(label))?.replace(label, '').trim()`
— the shared field-extraction expression of `parseRecommendation`
(lines 62–66), for one `"<Label>:"` string. -/
def codeFieldValue (label : List Char) (lines : List (List Char)) :
    Option (List Char) :=
  (lines.find? (fun l => startsWithL (trimL l) label)).map
    (fun l => trimL (removeFirstOcc label l))

/-- JavaScript `expr || fallback` on an optional string: `undefined` and the
empty string are falsy, any other string is returned as is. -/
def jsOrDefault (v : Option (List Char)) (fb : List Char) : List Char :=
  match v with
  | none => fb
  | some s => if s = [] then fb else s

def descLabel : List Char := ("Description:").data
def locLabel : List Char := ("Location:").data
def dateLabel : List Char := ("Date:").data
def priceLabel : List Char := ("Price:").data
def catLabel : List Char := ("Categories:").data

def descFallback : List Char := ("No description available").data
def locFallback : List Char := ("Location not specified").data
def dateFallback : List Char := ("Date not specified").data

/-- Why `parseRecommendation` can fail: `tooFewLines` is the explicit
`return null` behind the `lines.length < 2` guard; `indexOutOfBounds` marks
the only unguarded array access, `lines[0]`, which in JavaScript would yield
`undefined` (and a downstream crash in `.replace`) were the line list empty. -/
inductive ParseFailure where
  | tooFewLines
  | indexOutOfBounds
deriving Repr, DecidableEq

/-- The function `parseRecommendation` of `src/unnamed/part_000` (lines 49–76), instrumented:
the result distinguishes the explicit `null` return (`tooFewLines`) from the
hypothetical out-of-bounds access at `lines[0]` (`indexOutOfBounds`). -/
def parseRecommendationChecked (text : List Char) :
    Except ParseFailure Recommendation :=
  let lines := nonEmptyLines text
  if lines.length < 2 then .error .tooFewLines
  else
    match lines with
    | [] => .error .indexOutOfBounds
    | l0 :: _ =>
      .ok
        { title := trimL (stripBullet l0)
          description := jsOrDefault (codeFieldValue descLabel lines) descFallback
          date := jsOrDefault (codeFieldValue dateLabel lines) dateFallback
          location := jsOrDefault (codeFieldValue locLabel lines) locFallback
          price := codeFieldValue priceLabel lines
          categories :=
            (codeFieldValue catLabel lines).map
              (fun v => (splitOnChar ',' v).map trimL) }

/-- The function `parseRecommendation` as typed in the source:
`(text: string) => Recommendation | null`, with `null` as `none`. -/
def parseRecommendation (text : List Char) : Option Recommendation :=
  match parseRecommendationChecked text with
  | .ok r => some r
  | .error _ => none

/-- Whether an instrumented parse outcome is the out-of-bounds marker. -/
def isIndexOOB : Except ParseFailure Recommendation → Bool
  | .error .indexOutOfBounds => true
  | _ => false

/-! ### Field extraction as the specification words it

The functions below transcribe the spec's description of field extraction
("scan … for the first [line] whose trimmed content starts with `"<Label>:"`;
if found, take the substring after the colon, trimmed, as the field value"),
to be compared with `codeFieldValue` above, which follows the source's
`replace`-based implementation. -/

/-- The substring of the line's trimmed content after the `"<Label>:"` part,
trimmed — the field value as the spec words it. -/
def claimValue (label : List Char) (l : List Char) : List Char :=
  trimL ((trimL l).drop label.length)

/-- A mandatory-with-fallback field (`description` / `location` / `date`) as
the amended claim words it: the value of the first line whose trimmed content
starts with the label; the fallback when no such line exists or the value is
empty. -/
def claimStringField (label fb : List Char) (lines : List (List Char)) :
    List Char :=
  match lines.find? (fun l => startsWithL (trimL l) label) with
  | none => fb
  | some l => if claimValue label l = [] then fb else claimValue label l

/-- The optional `price` field as the claim words it: the value of the first
labelled line, or absent. -/
def claimOptField (label : List Char) (lines : List (List Char)) :
    Option (List Char) :=
  (lines.find? (fun l => startsWithL (trimL l) label)).map (claimValue label)

/-- The `categories` field as the amended claim words it: the value of the
first `Categories:` line, split on commas, each piece trimmed (empty pieces
retained). -/
def claimCatsField (lines : List (List Char)) : Option (List (List Char)) :=
  (lines.find? (fun l => startsWithL (trimL l) catLabel)).map
    (fun l => (splitOnChar ',' (claimValue catLabel l)).map trimL)

/-! ### Category-tag rendering -/

/-- One step of building a JavaScript `Set` by iterated insertion: an element
already present is ignored, a new one is appended (a JS `Set` iterates in
insertion order). -/
def jsSetInsert (acc : List (List Char)) (a : List Char) : List (List Char) :=
  if a ∈ acc then acc else acc ++ [a]

/-- The expression `Array.from(new Set(cats))` — the category tags the card renderer shows
(`src/unnamed/part_000`, line 195). -/
def renderedCategories (cats : List (List Char)) : List (List Char) :=
  cats.foldl jsSetInsert []

/-- Deduplication as the spec words it: keep each element's first occurrence,
in order, and drop every later duplicate. -/
def firstOccurrenceDedup : List (List Char) → List (List Char)
  | [] => []
  | a :: l => a :: firstOccurrenceDedup (l.filter (fun b => !decide (b = a)))
termination_by l => l.length
decreasing_by
  simp only [List.length_cons]
  exact Nat.lt_succ_of_le (List.length_filter_le _ _)

/-! ### Relevance-score display -/

/-- JavaScript `Number.prototype.toFixed(0)` on an exact rational: the integer
nearest to the argument, ties resolved to the larger integer
(ECMA-262 §21.1.3.3 picks the larger of two equally close candidates). -/
def jsToFixed0 (q : ℚ) : ℤ := Rat.floor (q + 1/2)

/-- The truthiness guard `rec.relevance_score && …` of the card renderer
(`src/unnamed/part_000`, line 183): the score paragraph is rendered only when
the field is present and nonzero (`0` is falsy in JavaScript). -/
def relevanceShown (score : Option ℚ) : Bool :=
  match score with
  | none => false
  | some q => !decide (q = 0)

/-- The integer the renderer interpolates: `(rec.relevance_score * 100).toFixed(0)`
(`src/unnamed/part_000`, line 188). -/
def displayedPercent (q : ℚ) : ℤ := jsToFixed0 (q * 100)

/-- The percentage text the card shows, e.g. `"88%"`. -/
def percentText (q : ℚ) : String := toString (displayedPercent q) ++ "%"

/-! ### The submit handler of `src/unnamed/part_000` (lines 78–104) -/

/-- The `recommendations` field of a response body, as the handler inspects it
with `Array.isArray`: either an array of records, or anything else (a string,
an object, a missing field — all fail the `Array.isArray` test alike). -/
inductive RecsField where
  | arr (recs : List Recommendation)
  | notArr
deriving Repr

/-- How the awaited `axios.post` call ends: a resolved response whose body
carries `recommendations`, or a rejection (network failure, non-2xx status),
which the `catch` block receives. -/
inductive SubmitOutcome where
  | success (recommendations : RecsField)
  | failure
deriving Repr

/-- The component state `handleSubmit` updates: the `recommendations`,
`error` and `loading` `useState` cells. -/
structure UIState where
  recommendations : List Recommendation
  error : List Char
  loading : Bool
deriving Repr, DecidableEq

def invalidFormatMsg : List Char := ("Invalid response format from server").data
def fetchFailedMsg : List Char :=
  ("Failed to fetch recommendations. Please try again.").data

/-- The handler `handleSubmit` of `src/unnamed/part_000` as a state transformer: the
handler first sets `loading`, clears `error` and `recommendations`, then
branches on the awaited outcome inside `try`/`catch`, and the `finally`
block clears `loading` on every path. The embedding is a total function:
every exit path produces a state, none re-throws. -/
def handleSubmit (_st : UIState) (outcome : SubmitOutcome) : UIState :=
  let st1 : UIState := { recommendations := [], error := [], loading := true }
  let st2 :=
    match outcome with
    | .success (.arr recs) => { st1 with recommendations := recs }
    | .success .notArr => { st1 with error := invalidFormatMsg }
    | .failure => { st1 with error := fetchFailedMsg }
  { st2 with loading := false }

/-! ### The submit handler of `src/frontend/src/App.tsx` (lines 29–53) -/

/-- The component state of the `src/frontend` variant: `events`, a nullable
`error`, and `loading`. The event payload reuses the `Recommendation` record
shape (the spec's `StructuredRecommendation`). -/
structure AppState where
  events : List Recommendation
  error : Option (List Char)
  loading : Bool
deriving Repr, DecidableEq

/-- How the awaited `getRecommendations` call ends: the parsed response
(carrying the `recommendations` list) or a thrown `Error` whose message the
`catch` block displays. -/
inductive FetchOutcome where
  | ok (recommendations : List Recommendation)
  | threw (msg : List Char)
deriving Repr

def zipRequiredMsg : List Char := ("Please enter your zip code").data
def noEventsMsg : List Char :=
  ("No events found in your area. Try adjusting your zip code.").data

/-- The handler `handleSubmit` of `src/frontend/src/App.tsx` as a state transformer:
set `loading`, clear `error`; an all-whitespace zip code takes the early
validation return (clearing `loading` by hand before `return`); otherwise the
`try` block stores the events, flags an empty result list, the `catch` block
stores the thrown message, and `finally` clears `loading`. -/
def handleSubmitFrontend (st : AppState) (zip : List Char)
    (outcome : FetchOutcome) : AppState :=
  let st1 : AppState := { st with loading := true, error := none }
  if trimL zip = [] then
    { st1 with error := some zipRequiredMsg, loading := false }
  else
    let st2 :=
      match outcome with
      | .ok recs =>
          { st1 with
            events := recs
            error := if recs.length = 0 then some noEventsMsg else none }
      | .threw msg => { st1 with error := some msg }
    { st2 with loading := false }

/-! ### Browser storage and the JSON string-array codec

`src/frontend/src/App.tsx` persists `zipCode` (a plain string) and
`interests` (`JSON.stringify` of a string array) to `localStorage` whenever
the preferences change (lines 24–27), and reads them back on mount
(lines 16–22). `localStorage`, `JSON.stringify` and `JSON.parse` are
platform primitives, modelled here from ECMA-262: the storage as a
string-keyed partial map, and the JSON codec restricted to arrays of strings
— the only shape this component stores. The parser covers exactly the
grammar `JSON.stringify` emits for such arrays (no inter-token whitespace,
which `stringify` never produces without an indent argument). -/

/-- Browser `localStorage`, as the string-keyed partial map the component uses. -/
def Store : Type := List Char → Option (List Char)

/-- Browser `localStorage.setItem`. -/
def setItem (st : Store) (k v : List Char) : Store :=
  fun k' => if k' = k then some v else st k'

/-- Browser `localStorage.getItem` (`null` when the key is absent). -/
def getItem (st : Store) (k : List Char) : Option (List Char) := st k

/-- A storage with no entries. -/
def emptyStore : Store := fun _ => none

/-- The lower-case hexadecimal digit for `d < 16`, as `JSON.stringify` emits
in `\u00xx` escapes (code 48 is `'0'`, code 87 + 10 is `'a'`). -/
def lowerHexDigit (d : Nat) : Char :=
  Char.ofNat (if d < 10 then d + 48 else d + 87)

/-- The encoding `JSON.stringify` applies to one character inside a string literal
(ECMA-262 §25.5.2.2 `QuoteJSONString`): two-character escapes for the quote,
backslash, backspace, tab, newline, form feed and carriage return; `\u00xx`
for the remaining control characters; every other character literally. -/
def encodeJsonChar (c : Char) : List Char :=
  if c = '"' then ['\\', '"']
  else if c = '\\' then ['\\', '\\']
  else if c = '\x08' then ['\\', 'b']
  else if c = '\t' then ['\\', 't']
  else if c = '\n' then ['\\', 'n']
  else if c = '\x0c' then ['\\', 'f']
  else if c = '\r' then ['\\', 'r']
  else if c.toNat < 0x20 then
    '\\' :: 'u' :: '0' :: '0' ::
      lowerHexDigit (c.toNat / 16) :: [lowerHexDigit (c.toNat % 16)]
  else [c]

/-- The result of `JSON.stringify` on one string: a quoted, escaped literal. -/
def encodeJsonString (s : List Char) : List Char :=
  '"' :: (s.flatMap encodeJsonChar ++ ['"'])

/-- The comma-separated element list of a stringified string array. -/
def encodeJsonStrList : List (List Char) → List Char
  | [] => []
  | [s] => encodeJsonString s
  | s :: t => encodeJsonString s ++ ',' :: encodeJsonStrList t

/-- The result of `JSON.stringify` on an array of strings: `[` , the comma-separated
encoded elements, `]`. -/
def jsonStringifyStrArray (l : List (List Char)) : List Char :=
  '[' :: (encodeJsonStrList l ++ [']'])

/-- The numeric value of one hexadecimal digit, as `JSON.parse` reads
`\uXXXX` escapes (either letter case). -/
def jsHexVal (c : Char) : Option Nat :=
  let n := c.toNat
  if 48 ≤ n && n ≤ 57 then some (n - 48)
  else if 97 ≤ n && n ≤ 102 then some (n - 87)
  else if 65 ≤ n && n ≤ 70 then some (n - 55)
  else none

/-- The character a two-character JSON escape denotes. -/
def jsUnescape (c : Char) : Option Char :=
  if c = '"' then some '"'
  else if c = '\\' then some '\\'
  else if c = '/' then some '/'
  else if c = 'b' then some '\x08'
  else if c = 'f' then some '\x0c'
  else if c = 'n' then some '\n'
  else if c = 'r' then some '\r'
  else if c = 't' then some '\t'
  else none

/-- The behavior of `JSON.parse` inside a string literal, after the opening quote: the decoded
characters up to the closing quote, and the input following it. Unescaped
control characters are rejected, as in the JSON grammar. -/
def parseJsonStringBody : List Char → Option (List Char × List Char)
  | [] => none
  | '"' :: rest => some ([], rest)
  | '\\' :: 'u' :: a :: b :: c2 :: d :: r =>
    match jsHexVal a, jsHexVal b, jsHexVal c2, jsHexVal d with
    | some va, some vb, some vc, some vd =>
      (parseJsonStringBody r).map
        (fun p => (Char.ofNat (va * 4096 + vb * 256 + vc * 16 + vd) :: p.1, p.2))
    | _, _, _, _ => none
  | '\\' :: e :: r =>
    match jsUnescape e with
    | some ch => (parseJsonStringBody r).map (fun p => (ch :: p.1, p.2))
    | none => none
  | '\\' :: [] => none
  | c :: rest =>
    if c.toNat < 0x20 then none
    else (parseJsonStringBody rest).map (fun p => (c :: p.1, p.2))

/-- The behavior of `JSON.parse` on the non-empty element list of a string array: one-or-more
comma-separated string literals, ending at the `]` that closes the array.
Each parsed element consumes at least one input character, so the caller's
input length bounds the recursion (`fuel`). -/
def parseElems : Nat → List Char → Option (List (List Char) × List Char)
  | 0, _ => none
  | fuel + 1, cs =>
    match cs with
    | '"' :: rest =>
      match parseJsonStringBody rest with
      | some (s, r) =>
        match r with
        | ',' :: r' => (parseElems fuel r').map (fun p => (s :: p.1, p.2))
        | ']' :: r' => some ([s], r')
        | _ => none
      | none => none
    | _ => none

/-- The behavior of `JSON.parse` restricted to arrays of strings in the exact grammar
`JSON.stringify` emits: `[]`, or `[`, comma-separated string literals, `]`,
with no trailing input. Any other document yields `none`. -/
def parseJsonStrArray (cs : List Char) : Option (List (List Char)) :=
  match cs with
  | '[' :: rest =>
    if rest = [']'] then some []
    else
      match parseElems rest.length rest with
      | some (l, r) => if r = [] then some l else none
      | none => none
  | _ => none

def zipCodeKey : List Char := ("zipCode").data
def interestsKey : List Char := ("interests").data

/-- The persistence effect of `src/frontend/src/App.tsx` (lines 24–27): on
every preference change, write `zipCode` as is and `interests` as
`JSON.stringify(interests)`. -/
def savePreferences (st : Store) (zip : List Char)
    (interests : List (List Char)) : Store :=
  setItem (setItem st zipCodeKey zip) interestsKey
    (jsonStringifyStrArray interests)

/-- The mount-time reload of the interest list (lines 16–22): read
`interests`; the falsy guard `if (savedInterests)` skips `null` and the empty
string; otherwise `JSON.parse` the stored text. -/
def loadInterests (st : Store) : Option (List (List Char)) :=
  match getItem st interestsKey with
  | none => none
  | some s => if s = [] then none else parseJsonStrArray s

/-! ## General lemmas about the embedded primitives -/

theorem parseRecommendationChecked_of_lt (text : List Char)
    (h : (nonEmptyLines text).length < 2) :
    parseRecommendationChecked text = .error .tooFewLines := by
  simp [parseRecommendationChecked, h]

theorem parseRecommendationChecked_of_ge (text : List Char) (l0 : List Char)
    (rest : List (List Char)) (hl : nonEmptyLines text = l0 :: rest)
    (h : 2 ≤ (nonEmptyLines text).length) :
    parseRecommendationChecked text =
      .ok
        { title := trimL (stripBullet l0)
          description :=
            jsOrDefault (codeFieldValue descLabel (nonEmptyLines text)) descFallback
          date := jsOrDefault (codeFieldValue dateLabel (nonEmptyLines text)) dateFallback
          location :=
            jsOrDefault (codeFieldValue locLabel (nonEmptyLines text)) locFallback
          price := codeFieldValue priceLabel (nonEmptyLines text)
          categories :=
            (codeFieldValue catLabel (nonEmptyLines text)).map
              (fun v => (splitOnChar ',' v).map trimL) } := by
  have h2 : ¬ (nonEmptyLines text).length < 2 := by omega
  simp only [parseRecommendationChecked, h2, if_false]
  rw [hl]

/-! ## Theorems for the claims -/

example : parseRecommendation ("x").data = none := by decide
example :
    parseRecommendation ("- Jazz Night\nDescription: Smooth jazz\nDate: Friday").data =
      some
        { title := ("Jazz Night").data
          description := ("Smooth jazz").data
          date := ("Friday").data
          location := ("Location not specified").data
          price := none
          categories := none } := by decide

/-- C2: `parseRecommendation` returns the invalid sentinel (`null`, here
`none`) exactly when fewer than 2 lines remain after dropping the lines that
are empty after trimming; every other input parses successfully, whatever
extra lines, label order or whitespace it contains. -/
theorem parseRecommendation_none_iff (text : List Char) :
    parseRecommendation text = none ↔ (nonEmptyLines text).length < 2 := by
  by_cases h : (nonEmptyLines text).length < 2
  · simp [parseRecommendation, parseRecommendationChecked_of_lt text h, h]
  · match hl : nonEmptyLines text with
    | [] => rw [hl] at h; simp at h
    | l0 :: rest =>
      rw [hl] at h
      rw [parseRecommendation, parseRecommendationChecked_of_ge text l0 rest hl
        (by rw [hl]; omega)]
      simpa [hl] using h

/-- C2 witness: a one-line block is rejected, a two-line block is accepted. -/
theorem parseRecommendation_none_iff_witness :
    parseRecommendation ("just a title").data = none ∧
      ¬ parseRecommendation ("Jazz Night\nDate: Friday").data = none := by
  constructor
  · exact (parseRecommendation_none_iff (("just a title").data)).mpr (by decide)
  · intro hcontra
    have := (parseRecommendation_none_iff (("Jazz Night\nDate: Friday").data)).mp hcontra
    revert this
    decide

/-- C5: a response whose `recommendations` field is present but not an array
makes the submit handler set the format-error message and leave the results
list empty; the embedded handler is a total function, so no exception
escapes it. -/
theorem handleSubmit_invalid_format (st : UIState) :
    handleSubmit st (.success .notArr) =
      { recommendations := [], error := invalidFormatMsg, loading := false } :=
  rfl

/-- C7: both submit handlers leave `loading = false` on every exit path —
success, structural error and thrown exception for the `src/unnamed/part_000`
variant; early validation return, success, empty result and thrown exception
for the `src/frontend/src/App.tsx` variant. -/
theorem submit_handlers_clear_loading :
    (∀ (st : UIState) (o : SubmitOutcome), (handleSubmit st o).loading = false) ∧
      ∀ (st : AppState) (zip : List Char) (o : FetchOutcome),
        (handleSubmitFrontend st zip o).loading = false := by
  constructor
  · intro st o
    rfl
  · intro st zip o
    rw [handleSubmitFrontend.eq_def]
    split <;> rfl

/-- C9: `parseRecommendation` is total by construction, and the instrumented
parser never reaches the out-of-bounds branch of the `lines[0]` access: the
`lines.length < 2` guard already returned the sentinel on every line list
shorter than one element. The only failure is the explicit `null`,
and it coincides with the `none` result of the plain embedding. -/
theorem parseRecommendation_total_no_oob (text : List Char) :
    isIndexOOB (parseRecommendationChecked text) = false ∧
      (parseRecommendationChecked text = .error .tooFewLines ↔
        parseRecommendation text = none) := by
  by_cases h : (nonEmptyLines text).length < 2
  · rw [parseRecommendationChecked_of_lt text h]
    simp [isIndexOOB, parseRecommendation, parseRecommendationChecked_of_lt text h]
  · match hl : nonEmptyLines text with
    | [] => rw [hl] at h; simp at h
    | l0 :: rest =>
      rw [hl] at h
      rw [parseRecommendationChecked_of_ge text l0 rest hl (by rw [hl]; omega),
        parseRecommendation,
        parseRecommendationChecked_of_ge text l0 rest hl (by rw [hl]; omega)]
      simp [isIndexOOB]

/-- C9 witness: the equivalence instantiated on a rejected and an accepted
concrete block. -/
theorem parseRecommendation_total_no_oob_witness :
    isIndexOOB (parseRecommendationChecked ("only title").data) = false ∧
      parseRecommendation ("only title").data = none :=
  ⟨(parseRecommendation_total_no_oob (("only title").data)).1,
    (parseRecommendation_total_no_oob (("only title").data)).2.mp
      (parseRecommendationChecked_of_lt (("only title").data) (by decide))⟩

/-- C10: an input whose first line is a bare bullet marker parses to a valid
record with an empty title: bullet stripping plus trimming can erase the
whole first line, so a present title is not guaranteed non-empty. -/
theorem parseRecommendation_empty_title_possible :
    ∃ (text : List Char) (r : Recommendation),
      2 ≤ (nonEmptyLines text).length ∧
        parseRecommendation text = some r ∧ r.title = [] := by
  refine ⟨("-\nDescription: Yes").data,
    { title := []
      description := ("Yes").data
      date := dateFallback
      location := locFallback
      price := none
      categories := none }, by decide, by decide, rfl⟩

/-- C3 counterexample: the parser does not drop empty category pieces. For a
block containing `Categories: Music,,Art` the parsed categories are
`["Music", "", "Art"]`, not the `["Music", "Art"]` the claim states: the
source splits on commas and trims each piece (`.split(',').map(c => c.trim())`)
with no filter on the result. -/
theorem parseRecommendation_keeps_empty_category_pieces :
    (parseRecommendation ("T\nCategories: Music,,Art").data).bind
        (fun r => r.categories) =
      some [("Music").data, [], ("Art").data] ∧
      ¬ [("Music").data, ([] : List Char), ("Art").data] =
          [("Music").data, ("Art").data] := by
  constructor
  · decide
  · decide

/-- Helper for the C4/C3 step goals: `jsSetInsert` folded over a list, for an
arbitrary accumulated insertion-order set, appends exactly the first
occurrences of the elements not yet present. -/
theorem foldl_jsSetInsert (l : List (List Char)) : ∀ acc : List (List Char),
    l.foldl jsSetInsert acc =
      acc ++ firstOccurrenceDedup (l.filter (fun b => !decide (b ∈ acc))) := by
  induction l with
  | nil => intro acc; simp [firstOccurrenceDedup]
  | cons a l ih =>
    intro acc
    rw [List.foldl_cons]
    by_cases ha : a ∈ acc
    · have h1 : jsSetInsert acc a = acc := by simp [jsSetInsert, ha]
      rw [h1, ih acc, List.filter_cons]
      simp [ha]
    · have h1 : jsSetInsert acc a = acc ++ [a] := by simp [jsSetInsert, ha]
      rw [h1, ih (acc ++ [a]), List.filter_cons]
      have hfa : (!decide (a ∈ acc)) = true := by simp [ha]
      rw [if_pos hfa, firstOccurrenceDedup, List.filter_filter]
      have hpt : ∀ b : List Char,
          (!decide (b ∈ acc ++ [a])) = ((!decide (b = a)) && !decide (b ∈ acc)) := by
        intro b
        by_cases h1 : b = a <;> by_cases h2 : b ∈ acc <;> simp [h1, h2]
      simp only [hpt, List.append_assoc, List.singleton_append]

/-- C4: the rendered category tags are the parsed category list with
duplicates removed, keeping only each element's first occurrence in order
(`Array.from(new Set(...))` iterates a JS `Set` in insertion order); for a
block containing `Categories: Music, Music, Art` the rendered tags are
`["Music", "Art"]`. -/
theorem renderedCategories_dedup_first_occurrence :
    (∀ cats : List (List Char), renderedCategories cats = firstOccurrenceDedup cats) ∧
      (parseRecommendation ("Jazz Night\nCategories: Music, Music, Art").data).bind
          (fun r => r.categories) =
        some [("Music").data, ("Music").data, ("Art").data] ∧
      renderedCategories [("Music").data, ("Music").data, ("Art").data] =
        [("Music").data, ("Art").data] := by
  refine ⟨fun cats => ?_, by decide, by decide⟩
  rw [renderedCategories, foldl_jsSetInsert cats []]
  simp

/-- C6 counterexample: a record whose `relevance_score` is present with value
`0` does not get the percentage rendered at all — the render guard is the JS
truthiness test `rec.relevance_score && …`, and `0` is falsy — whereas the
claim states every present score is displayed. -/
theorem relevance_zero_not_shown :
    (some (0 : ℚ)).isSome = true ∧ relevanceShown (some 0) = false := by
  constructor
  · rfl
  · decide

/-- C6 (amended): the percentage paragraph is rendered exactly for a present,
nonzero score; when rendered it shows the score times 100 rounded to the
nearest integer (ties upward, as `toFixed(0)` resolves them), which for any
score in [0,1] lies between 0 and 100; for `relevance_score = 0.876` the
rendered text is `"88%"`. -/
theorem relevance_display_spec :
    (∀ q : ℚ, relevanceShown (some q) = true ↔ ¬ q = 0) ∧
      relevanceShown none = false ∧
      (∀ q : ℚ, 0 ≤ q → q ≤ 1 →
        0 ≤ displayedPercent q ∧ displayedPercent q ≤ 100) ∧
      percentText (876 / 1000) = "88%" := by
  have hfl : ∀ q : ℚ, displayedPercent q = ⌊q * 100 + 1 / 2⌋ := fun q => rfl
  refine ⟨fun q => ?_, rfl, fun q h0 h1 => ⟨?_, ?_⟩, ?_⟩
  · simp [relevanceShown]
  · rw [hfl, Int.le_floor]
    push_cast
    linarith
  · rw [hfl, Int.floor_le_iff]
    push_cast
    linarith
  · rw [percentText, show displayedPercent (876 / 1000) = 88 by rw [hfl]; norm_num]
    decide

/-- C6 witness: the amended display rule instantiated at the score 1/2. -/
theorem relevance_display_spec_witness :
    relevanceShown (some (1 / 2 : ℚ)) = true ∧
      0 ≤ displayedPercent (1 / 2) ∧ displayedPercent (1 / 2) ≤ 100 :=
  ⟨(relevance_display_spec.1 (1 / 2)).mpr (by norm_num),
    (relevance_display_spec.2.2.1 (1 / 2) (by norm_num) (by norm_num)).1,
    (relevance_display_spec.2.2.1 (1 / 2) (by norm_num) (by norm_num)).2⟩

/-! ## The `replace`-based field extraction matches the spec's wording

`codeFieldValue` takes the matched line, removes the first occurrence of the
label anywhere in it, and trims; `claimValue` takes the substring of the
trimmed line after the label. The lemmas below show the two agree whenever
the line's trimmed content starts with the label and the label does not
start with a whitespace character. -/

theorem startsWithL_append (p t : List Char) : startsWithL (p ++ t) p = true := by
  induction p with
  | nil => cases t <;> rfl
  | cons c p ih => simp [startsWithL, ih]

theorem exists_of_startsWithL :
    ∀ (p l : List Char), startsWithL l p = true → ∃ t, l = p ++ t
  | [], l, _ => ⟨l, rfl⟩
  | c :: p, [], h => by simp [startsWithL] at h
  | c :: p, a :: l, h => by
    rw [startsWithL] at h
    split at h
    · next heq =>
      obtain ⟨t, rfl⟩ := exists_of_startsWithL p l h
      exact ⟨t, by simp [heq]⟩
    · exact absurd h (by simp)

theorem removeFirstOcc_of_startsWith (sub l : List Char)
    (h : startsWithL l sub = true) :
    removeFirstOcc sub l = l.drop sub.length := by
  cases l with
  | nil =>
    cases sub with
    | nil => rfl
    | cons c cs => simp [startsWithL] at h
  | cons c cs => simp [removeFirstOcc, h]

theorem removeFirstOcc_ws_append (c0 : Char) (lab : List Char)
    (hc : jsWhitespace c0 = false) :
    ∀ (w d : List Char), (∀ x ∈ w, jsWhitespace x = true) →
      removeFirstOcc (c0 :: lab) (w ++ d) = w ++ removeFirstOcc (c0 :: lab) d
  | [], d, _ => by simp
  | x :: w, d, hw => by
    have hx : jsWhitespace x = true := hw x (by simp)
    have hxc : ¬ x = c0 := fun he => by rw [he, hc] at hx; cases hx
    have hns : startsWithL (x :: (w ++ d)) (c0 :: lab) = false := by
      simp [startsWithL, hxc]
    rw [List.cons_append, removeFirstOcc, if_neg (by simp [hns]),
      removeFirstOcc_ws_append c0 lab hc w d (fun y hy => hw y (by simp [hy])),
      List.cons_append]

theorem dropWhile_append_of_all (p : Char → Bool) (w x : List Char)
    (hw : ∀ a ∈ w, p a = true) :
    List.dropWhile p (w ++ x) = List.dropWhile p x := by
  rw [List.dropWhile_append, List.dropWhile_eq_nil_iff.mpr hw]
  simp

theorem trimL_ws_append (w x : List Char) (hw : ∀ a ∈ w, jsWhitespace a = true) :
    trimL (w ++ x) = trimL x := by
  rw [trimL, trimL, dropWhile_append_of_all _ w x hw]

theorem trimL_append_ws (x t : List Char) (ht : ∀ a ∈ t, jsWhitespace a = true) :
    trimL (x ++ t) = trimL x := by
  rw [trimL, trimL, List.dropWhile_append]
  by_cases hx : (x.dropWhile jsWhitespace).isEmpty
  · have hx0 : x.dropWhile jsWhitespace = [] := by
      cases h : x.dropWhile jsWhitespace with
      | nil => rfl
      | cons a l => rw [h] at hx; simp at hx
    rw [if_pos hx, hx0, List.dropWhile_eq_nil_iff.mpr ht]
  · rw [if_neg hx, List.reverse_append,
      dropWhile_append_of_all _ t.reverse _ (fun a ha => ht a (by simpa using ha))]

theorem codeValue_eq_claimValue (c0 : Char) (lab l : List Char)
    (hc : jsWhitespace c0 = false)
    (h : startsWithL (trimL l) (c0 :: lab) = true) :
    trimL (removeFirstOcc (c0 :: lab) l) = claimValue (c0 :: lab) l := by
  have hl : l = l.takeWhile jsWhitespace ++ l.dropWhile jsWhitespace :=
    (List.takeWhile_append_dropWhile _ _).symm
  have hw : ∀ x ∈ l.takeWhile jsWhitespace, jsWhitespace x = true :=
    fun x hx => List.mem_takeWhile_imp hx
  obtain ⟨t, ht, hd⟩ :
      ∃ t, (∀ x ∈ t, jsWhitespace x = true) ∧
        l.dropWhile jsWhitespace = trimL l ++ t := by
    refine ⟨((l.dropWhile jsWhitespace).reverse.takeWhile jsWhitespace).reverse,
      fun x hx => List.mem_takeWhile_imp (by simpa using hx), ?_⟩
    have hu : trimL l =
        ((l.dropWhile jsWhitespace).reverse.dropWhile jsWhitespace).reverse := rfl
    rw [hu]
    conv_lhs => rw [← List.reverse_reverse (l.dropWhile jsWhitespace)]
    conv_lhs =>
      rw [← List.takeWhile_append_dropWhile jsWhitespace
        (l.dropWhile jsWhitespace).reverse]
    rw [List.reverse_append]
  obtain ⟨s, hs⟩ := exists_of_startsWithL (c0 :: lab) (trimL l) h
  have hdL : startsWithL (l.dropWhile jsWhitespace) (c0 :: lab) = true := by
    rw [hd, hs, List.append_assoc]
    exact startsWithL_append _ _
  calc trimL (removeFirstOcc (c0 :: lab) l)
      = trimL (l.takeWhile jsWhitespace ++
          removeFirstOcc (c0 :: lab) (l.dropWhile jsWhitespace)) := by
        conv_lhs => rw [hl, removeFirstOcc_ws_append c0 lab hc _ _ hw]
    _ = trimL (removeFirstOcc (c0 :: lab) (l.dropWhile jsWhitespace)) :=
        trimL_ws_append _ _ hw
    _ = trimL ((l.dropWhile jsWhitespace).drop (c0 :: lab).length) := by
        rw [removeFirstOcc_of_startsWith _ _ hdL]
    _ = trimL (s ++ t) := by
        rw [hd, hs, List.append_assoc, List.drop_left]
    _ = trimL s := trimL_append_ws _ _ ht
    _ = claimValue (c0 :: lab) l := by
        rw [claimValue, hs, List.drop_left]

theorem codeFieldValue_eq_claim (lab : List Char) (lines : List (List Char))
    (hne : ¬ lab = []) (hc : jsWhitespace lab.headI = false) :
    codeFieldValue lab lines =
      (lines.find? (fun l => startsWithL (trimL l) lab)).map (claimValue lab) := by
  obtain ⟨c0, lab', rfl⟩ : ∃ c0 lab', lab = c0 :: lab' := by
    cases lab with
    | nil => exact absurd rfl hne
    | cons c0 lab' => exact ⟨c0, lab', rfl⟩
  rw [codeFieldValue]
  cases hf : lines.find? (fun l => startsWithL (trimL l) (c0 :: lab')) with
  | none => simp
  | some l =>
    have hp : startsWithL (trimL l) (c0 :: lab') = true := by
      have := List.find?_some hf
      simpa using this
    simp [codeValue_eq_claimValue c0 lab' l hc hp]

theorem jsOrDefault_code_eq_claimString (lab fb : List Char)
    (lines : List (List Char)) (hne : ¬ lab = [])
    (hc : jsWhitespace lab.headI = false) :
    jsOrDefault (codeFieldValue lab lines) fb = claimStringField lab fb lines := by
  rw [codeFieldValue_eq_claim lab lines hne hc, claimStringField]
  cases hf : lines.find? (fun l => startsWithL (trimL l) lab) <;>
    simp [hf, jsOrDefault]

/-- The full field-level description of a successful parse, with every field
stated through the spec-worded extraction functions. Shared backbone of the
C1 and C3 theorems. -/
theorem parseRecommendation_fields_aux (text : List Char)
    (h : 2 ≤ (nonEmptyLines text).length) :
    ∃ r, parseRecommendation text = some r ∧
      r.description = claimStringField descLabel descFallback (nonEmptyLines text) ∧
      r.location = claimStringField locLabel locFallback (nonEmptyLines text) ∧
      r.date = claimStringField dateLabel dateFallback (nonEmptyLines text) ∧
      r.price = claimOptField priceLabel (nonEmptyLines text) ∧
      r.categories = claimCatsField (nonEmptyLines text) := by
  obtain ⟨l0, rest, hl⟩ : ∃ l0 rest, nonEmptyLines text = l0 :: rest := by
    cases hnl : nonEmptyLines text with
    | nil => rw [hnl] at h; simp at h
    | cons a b => exact ⟨a, b, rfl⟩
  rw [parseRecommendation, parseRecommendationChecked_of_ge text l0 rest hl h]
  refine ⟨_, rfl, ?_, ?_, ?_, ?_, ?_⟩
  · exact jsOrDefault_code_eq_claimString descLabel descFallback
      (nonEmptyLines text) (by decide) (by decide)
  · exact jsOrDefault_code_eq_claimString locLabel locFallback
      (nonEmptyLines text) (by decide) (by decide)
  · exact jsOrDefault_code_eq_claimString dateLabel dateFallback
      (nonEmptyLines text) (by decide) (by decide)
  · show codeFieldValue priceLabel (nonEmptyLines text) =
      claimOptField priceLabel (nonEmptyLines text)
    rw [claimOptField, codeFieldValue_eq_claim priceLabel (nonEmptyLines text)
      (by decide) (by decide)]
  · show (codeFieldValue catLabel (nonEmptyLines text)).map
        (fun v => (splitOnChar ',' v).map trimL) =
      claimCatsField (nonEmptyLines text)
    rw [claimCatsField, codeFieldValue_eq_claim catLabel (nonEmptyLines text)
      (by decide) (by decide), Option.map_map]
    rfl

/-- C1 counterexample: for the block `"Description: A\nDate:"` the claim
predicts `description = "No description available"` (no `Description:` line
occurs strictly after the title line) and `date = ""` (a `Date:` line exists
whose value after the colon is empty). The code instead finds the
`Description:` label on the title line itself (`lines.find` scans all lines,
the first included) and replaces the empty `Date:` value with the fallback
(JavaScript `'' || fb` is `fb`). -/
theorem parseRecommendation_scans_title_line :
    parseRecommendation ("Description: A\nDate:").data =
      some
        { title := ("Description: A").data
          description := ("A").data
          date := dateFallback
          location := locFallback
          price := none
          categories := none } ∧
      ¬ ("A").data = descFallback ∧ ¬ dateFallback = ([] : List Char) :=
  ⟨by decide, by decide, by decide⟩

/-- C1 (amended): for every accepted raw block, each of the five known fields
is taken from the first line of the whole non-empty-line list — the title
line included — whose trimmed content starts with `"<Label>:"`, its value
being the substring after the colon, trimmed; the documented fallback is used
exactly when no such labelled line exists or when the extracted value is
empty (the JS `||` treats the empty string as absent). `price` and
`categories` have no fallback and stay absent in those cases. -/
theorem parseRecommendation_fields_spec (text : List Char)
    (h : 2 ≤ (nonEmptyLines text).length) :
    ∃ r, parseRecommendation text = some r ∧
      r.description = claimStringField descLabel descFallback (nonEmptyLines text) ∧
      r.location = claimStringField locLabel locFallback (nonEmptyLines text) ∧
      r.date = claimStringField dateLabel dateFallback (nonEmptyLines text) ∧
      r.price = claimOptField priceLabel (nonEmptyLines text) ∧
      r.categories = claimCatsField (nonEmptyLines text) :=
  parseRecommendation_fields_aux text h

/-- C1 witness: the amended field rules instantiated on a concrete block with
a fallback, a labelled value and an empty labelled value. -/
theorem parseRecommendation_fields_spec_witness :
    2 ≤ (nonEmptyLines ("Gallery Walk\nPrice: Free\nDate:").data).length ∧
      ∃ r, parseRecommendation ("Gallery Walk\nPrice: Free\nDate:").data = some r ∧
        r.description =
          claimStringField descLabel descFallback
            (nonEmptyLines ("Gallery Walk\nPrice: Free\nDate:").data) ∧
        r.location =
          claimStringField locLabel locFallback
            (nonEmptyLines ("Gallery Walk\nPrice: Free\nDate:").data) ∧
        r.date =
          claimStringField dateLabel dateFallback
            (nonEmptyLines ("Gallery Walk\nPrice: Free\nDate:").data) ∧
        r.price =
          claimOptField priceLabel
            (nonEmptyLines ("Gallery Walk\nPrice: Free\nDate:").data) ∧
        r.categories =
          claimCatsField (nonEmptyLines ("Gallery Walk\nPrice: Free\nDate:").data) :=
  ⟨by decide, parseRecommendation_fields_spec
    (("Gallery Walk\nPrice: Free\nDate:").data) (by decide)⟩

/-- C3 (amended): for every accepted raw block with a `Categories:` line, the
parsed categories are the line's value split on commas with each piece
trimmed — empty pieces are retained, not dropped, so
`Categories: Music,,Art` yields `["Music", "", "Art"]`. -/
theorem parseRecommendation_categories_spec (text : List Char)
    (h : 2 ≤ (nonEmptyLines text).length) :
    ∃ r, parseRecommendation text = some r ∧
      r.categories = claimCatsField (nonEmptyLines text) := by
  obtain ⟨r, hr, -, -, -, -, hcat⟩ := parseRecommendation_fields_aux text h
  exact ⟨r, hr, hcat⟩

/-- C3 witness: the amended category rule instantiated on the block of the
counterexample, where the middle piece is empty. -/
theorem parseRecommendation_categories_spec_witness :
    2 ≤ (nonEmptyLines ("T\nCategories: Music,,Art").data).length ∧
      ∃ r, parseRecommendation ("T\nCategories: Music,,Art").data = some r ∧
        r.categories = claimCatsField (nonEmptyLines ("T\nCategories: Music,,Art").data) :=
  ⟨by decide, parseRecommendation_categories_spec
    (("T\nCategories: Music,,Art").data) (by decide)⟩

/-! ## The JSON string-array codec round-trips -/

theorem jsHexVal_lowerHexDigit : ∀ d, d < 16 → jsHexVal (lowerHexDigit d) = some d := by
  decide

theorem parseJsonStringBody_u (x y : Char) (vx vy : Nat) (rest : List Char)
    (hx : jsHexVal x = some vx) (hy : jsHexVal y = some vy) :
    parseJsonStringBody ('\\' :: 'u' :: '0' :: '0' :: x :: y :: rest) =
      (parseJsonStringBody rest).map
        (fun p => (Char.ofNat (0 * 4096 + 0 * 256 + vx * 16 + vy) :: p.1, p.2)) := by
  have h0 : jsHexVal '0' = some 0 := by decide
  simp only [parseJsonStringBody, h0, hx, hy]

theorem parseJsonStringBody_other (c : Char) (rest : List Char)
    (h1 : ¬ c = '"') (h2 : ¬ c = '\\') (h3 : ¬ c.toNat < 0x20) :
    parseJsonStringBody (c :: rest) =
      (parseJsonStringBody rest).map (fun p => (c :: p.1, p.2)) := by
  simp [parseJsonStringBody, h1, h2, h3]

theorem parse_encodeJsonChar (c : Char) (rest : List Char) :
    parseJsonStringBody (encodeJsonChar c ++ rest) =
      (parseJsonStringBody rest).map (fun p => (c :: p.1, p.2)) := by
  rw [encodeJsonChar]
  by_cases h1 : c = '"'
  · subst h1; rfl
  rw [if_neg h1]
  by_cases h2 : c = '\\'
  · subst h2; rfl
  rw [if_neg h2]
  by_cases h3 : c = '\x08'
  · subst h3; rfl
  rw [if_neg h3]
  by_cases h4 : c = '\t'
  · subst h4; rfl
  rw [if_neg h4]
  by_cases h5 : c = '\n'
  · subst h5; rfl
  rw [if_neg h5]
  by_cases h6 : c = '\x0c'
  · subst h6; rfl
  rw [if_neg h6]
  by_cases h7 : c = '\r'
  · subst h7; rfl
  rw [if_neg h7]
  by_cases h8 : c.toNat < 0x20
  · rw [if_pos h8]
    show parseJsonStringBody ('\\' :: 'u' :: '0' :: '0' ::
        lowerHexDigit (c.toNat / 16) :: lowerHexDigit (c.toNat % 16) :: rest) = _
    rw [parseJsonStringBody_u _ _ (c.toNat / 16) (c.toNat % 16) rest
      (jsHexVal_lowerHexDigit _ (by omega)) (jsHexVal_lowerHexDigit _ (by omega))]
    have harith : 0 * 4096 + 0 * 256 + c.toNat / 16 * 16 + c.toNat % 16 = c.toNat := by
      omega
    simp only [harith, Char.ofNat_toNat]
  · rw [if_neg h8]
    show parseJsonStringBody (c :: rest) = _
    exact parseJsonStringBody_other c rest h1 h2 h8

theorem parseJsonStringBody_encoded (s : List Char) : ∀ rest : List Char,
    parseJsonStringBody (s.flatMap encodeJsonChar ++ '"' :: rest) = some (s, rest) := by
  induction s with
  | nil => intro rest; rfl
  | cons c s ih =>
    intro rest
    rw [List.flatMap_cons, List.append_assoc, parse_encodeJsonChar, ih]
    rfl

theorem encodeJsonStrList_cons2 (s s2 : List Char) (t : List (List Char)) :
    encodeJsonStrList (s :: s2 :: t) =
      encodeJsonString s ++ ',' :: encodeJsonStrList (s2 :: t) := by
  rw [encodeJsonStrList]
  simp

theorem le_length_encodeJsonStrList :
    ∀ l : List (List Char), l.length ≤ (encodeJsonStrList l).length
  | [] => Nat.le_refl 0
  | [s] => by simp [encodeJsonStrList, encodeJsonString]
  | s :: s2 :: t => by
    have ih := le_length_encodeJsonStrList (s2 :: t)
    rw [encodeJsonStrList_cons2]
    simp only [List.length_append, List.length_cons, encodeJsonString] at *
    omega

theorem encodeJsonStrList_head (s : List Char) (t : List (List Char)) :
    ∃ z, encodeJsonStrList (s :: t) = '"' :: z := by
  cases t with
  | nil => exact ⟨s.flatMap encodeJsonChar ++ ['"'], rfl⟩
  | cons s2 t2 =>
    refine ⟨(s.flatMap encodeJsonChar ++ ['"']) ++ ',' :: encodeJsonStrList (s2 :: t2), ?_⟩
    rw [encodeJsonStrList_cons2, encodeJsonString, List.cons_append]

theorem parseElems_encode :
    ∀ (l : List (List Char)) (fuel : Nat) (rest : List Char),
      ¬ l = [] → l.length ≤ fuel →
      parseElems fuel (encodeJsonStrList l ++ ']' :: rest) = some (l, rest) := by
  intro l
  induction l with
  | nil => intro fuel rest hne; exact absurd rfl hne
  | cons s t ih =>
    intro fuel rest _ hlen
    obtain ⟨f, rfl⟩ : ∃ f, fuel = f + 1 := by
      cases fuel with
      | zero => simp at hlen
      | succ f => exact ⟨f, rfl⟩
    cases t with
    | nil =>
      show parseElems (f + 1) (encodeJsonString s ++ ']' :: rest) = some ([s], rest)
      rw [encodeJsonString, List.cons_append, List.append_assoc]
      rw [parseElems]
      simp only [List.singleton_append, parseJsonStringBody_encoded]
    | cons s2 t2 =>
      rw [encodeJsonStrList_cons2, encodeJsonString]
      simp only [List.cons_append, List.append_assoc, List.singleton_append]
      rw [parseElems]
      simp only [parseJsonStringBody_encoded, List.nil_append]
      rw [ih f rest (by simp) (by simpa using Nat.le_of_succ_le_succ hlen)]
      rfl

theorem parseJson_stringify_roundtrip (l : List (List Char)) :
    parseJsonStrArray (jsonStringifyStrArray l) = some l := by
  cases l with
  | nil => rfl
  | cons s t =>
    obtain ⟨z, hz⟩ := encodeJsonStrList_head s t
    rw [jsonStringifyStrArray, parseJsonStrArray]
    have hne : ¬ (encodeJsonStrList (s :: t) ++ [']'] = [']']) := by
      intro hc
      rw [hz, List.cons_append] at hc
      simp at hc
    rw [if_neg hne]
    have hlen : (s :: t).length ≤ (encodeJsonStrList (s :: t) ++ [']']).length := by
      have h2 := le_length_encodeJsonStrList (s :: t)
      simp only [List.length_append, List.length_cons, List.length_nil] at h2 ⊢
      omega
    rw [show encodeJsonStrList (s :: t) ++ [']'] =
        encodeJsonStrList (s :: t) ++ ']' :: [] from rfl,
      parseElems_encode (s :: t) _ [] (by simp) (by simpa using hlen)]
    rfl

/-- C8: persisting the interest list to browser storage (JSON-encoded under
the key `interests`, next to the `zipCode` entry) and reloading it yields the
original ordered list, for every list of interest strings and every prior
storage content; in particular `["music", "art"]` survives the round trip. -/
theorem interests_roundtrip :
    (∀ (st : Store) (zip : List Char) (interests : List (List Char)),
        loadInterests (savePreferences st zip interests) = some interests) ∧
      loadInterests (savePreferences emptyStore ("10001").data
          [("music").data, ("art").data]) =
        some [("music").data, ("art").data] := by
  have hmain : ∀ (st : Store) (zip : List Char) (interests : List (List Char)),
      loadInterests (savePreferences st zip interests) = some interests := by
    intro st zip interests
    rw [loadInterests]
    have hget : getItem (savePreferences st zip interests) interestsKey =
        some (jsonStringifyStrArray interests) := by
      simp [getItem, savePreferences, setItem]
    rw [hget]
    have hne : ¬ (jsonStringifyStrArray interests = []) := by
      rw [jsonStringifyStrArray]
      simp
    show (if jsonStringifyStrArray interests = [] then none
      else parseJsonStrArray (jsonStringifyStrArray interests)) = some interests
    rw [if_neg hne, parseJson_stringify_roundtrip]
  exact ⟨hmain, hmain emptyStore (("10001").data) [("music").data, ("art").data]⟩
